import Mathlib

/-!
Verification of the `linked_queue` C library.

Shallow embedding of `src/library.h` (untyped `linked_queue_t` operations) and of
the typed-queue generator in `src/linked_queue.h` (`DEFINE_LINKED_QUEUE`).

The C heap is modelled as an association list from addresses (`Nat`) to nodes,
together with a bump allocator counter `nextAddr` standing for `malloc`.
A null pointer is `none : Option Addr`.  Every operation returns an `Option`
result: `none` models undefined behaviour (dereferencing or freeing a pointer
that is null or not allocated); `some` models a normal return of the C function.
`malloc` failure is modelled by an explicit `allocOk` argument to the operations
that allocate.

`size_t` arithmetic is modelled as `Nat` arithmetic modulo `W = 2^64`.
-/

set_option maxHeartbeats 1000000

abbrev Addr := Nat

/-- The `size_t` modulus. -/
def W : Nat := 2 ^ 64

/-- One `linked_queue_t` node: `void *data; next; tail; size_t size`
(`src/library.h` lines 41-47). -/
structure Node (V : Type) where
  data : V
  next : Option Addr
  tail : Option Addr
  size : Nat
deriving DecidableEq

/-- The C heap: allocated nodes indexed by address, plus the bump-allocator
counter used to model `malloc` returning fresh addresses. -/
structure Heap (V : Type) where
  mem : List (Addr × Node V)
  nextAddr : Addr
deriving DecidableEq

/-- Read the node stored at address `a`, `none` if `a` is not allocated. -/
def hLookup {V : Type} : List (Addr × Node V) → Addr → Option (Node V)
  | [], _ => none
  | (b, n) :: m, a => if a = b then some n else hLookup m a

/-- Drop the allocation at `a`, modelling `free(a)`. -/
def hRemove {V : Type} (m : List (Addr × Node V)) (a : Addr) : List (Addr × Node V) :=
  m.filter (fun e => e.1 != a)

/-- Store node `n` at address `a` (overwriting any previous contents). -/
def hInsert {V : Type} (m : List (Addr × Node V)) (a : Addr) (n : Node V) :
    List (Addr × Node V) :=
  (a, n) :: hRemove m a

/-- The `next` field of the node at `a`, as seen through the heap
(`none` if `a` is unallocated). -/
def nextOf {V : Type} (m : List (Addr × Node V)) (a : Addr) : Option (Option Addr) :=
  (hLookup m a).map Node.next

/-- Heap well-formedness: every allocated address is below the allocator
counter, so the next `malloc` result is fresh. -/
def hWF {V : Type} (h : Heap V) : Bool :=
  h.mem.all (fun e => decide (e.1 < h.nextAddr))

/-- Model of `linked_queue_init` (`src/library.h` lines 170-176): a node with all
fields zeroed.  The `data` field of the generic version is `NULL`; for the
typed version it is `(V){0}`, modelled by a supplied zero value. -/
def linked_queue_init {V : Type} (z : V) : Node V :=
  ⟨z, none, none, 0⟩

/--
Model of `linked_queue_next` (`src/library.h` lines 188-207).

The C argument is `linked_queue_t **head`; `ref = none` models a null double
pointer, `ref = some p` a valid double pointer whose cell holds `p`.
The result carries the updated heap and the updated cell contents.
`none` models undefined behaviour: the body writes `next_node->size` and
`next_node->tail` without checking `next_node = (*head)->next` for null.
-/
def linked_queue_next {V : Type} (h : Heap V) (ref : Option (Option Addr)) :
    Option (Heap V × Option (Option Addr)) :=
  match ref with
  | none => some (h, none)
  | some none => some (h, some none)
  | some (some p) =>
    match hLookup h.mem p with
    | none => none
    | some hn =>
      match hn.next with
      | none => none
      | some np =>
        match hLookup h.mem np with
        | none => none
        | some nn =>
          let m1 := hInsert h.mem np ⟨nn.data, nn.next, nn.tail, (hn.size + (W - 1)) % W⟩
          match hLookup m1 p with
          | none => none
          | some hn1 =>
            match hLookup m1 np with
            | none => none
            | some nn1 =>
              let m2 := hInsert m1 np ⟨nn1.data, nn1.next, hn1.tail, nn1.size⟩
              let m3 := hRemove m2 p
              some (⟨m3, h.nextAddr⟩, some (some np))

/--
Model of `linked_queue_append` (`src/library.h` lines 221-250).

`head = none` models a null `linked_queue_t *head`; `allocOk` models whether
the single `malloc` in the body succeeds.  The boolean result is the C
`TRUE`/`FALSE` return value.  Heap reads and writes are sequenced exactly as
in the C body; `none` models undefined behaviour (dereferencing an
unallocated `head` or a dangling `head->tail`).
-/
def linked_queue_append {V : Type} (h : Heap V) (head : Option Addr) (data : V)
    (allocOk : Bool) : Option (Heap V × Bool) :=
  match head with
  | none => some (h, false)
  | some p =>
    if allocOk then
      let newAddr := h.nextAddr
      let m1 := hInsert h.mem newAddr ⟨data, none, none, 0⟩
      match hLookup m1 p with
      | none => none
      | some hn1 =>
        let m2 := if hn1.tail = none then hInsert m1 p ⟨hn1.data, hn1.next, some p, hn1.size⟩ else m1
        match hLookup m2 p with
        | none => none
        | some hn2 =>
          match hn2.tail with
          | none => none
          | some t =>
            match hLookup m2 t with
            | none => none
            | some tn =>
              let m3 := hInsert m2 t ⟨tn.data, some newAddr, tn.tail, tn.size⟩
              match hLookup m3 p with
              | none => none
              | some hn3 =>
                let m4 := hInsert m3 p ⟨hn3.data, hn3.next, some newAddr, hn3.size⟩
                match hLookup m4 p with
                | none => none
                | some hn4 =>
                  let m5 := hInsert m4 p ⟨hn4.data, hn4.next, hn4.tail, (hn4.size + 1) % W⟩
                  some (⟨m5, h.nextAddr + 1⟩, true)
    else some (h, false)

/--
Model of `linked_queue_prepend` (`src/library.h` lines 264-303).

`ref` models the `linked_queue_t **head_ptr` argument as in
`linked_queue_next`.  The new node is written in program order: zero-init
plus `data`, then `tail`/`size` copied from the old head, then the old
head's `tail`/`size` are cleared, then `new_node->next = head` and the cell
is redirected.
-/
def linked_queue_prepend {V : Type} (h : Heap V) (ref : Option (Option Addr)) (data : V)
    (allocOk : Bool) : Option (Heap V × Option (Option Addr) × Bool) :=
  match ref with
  | none => some (h, none, false)
  | some none => some (h, some none, false)
  | some (some p) =>
    if allocOk then
      let newAddr := h.nextAddr
      let m1 := hInsert h.mem newAddr ⟨data, none, none, 0⟩
      match hLookup m1 p with
      | none => none
      | some hn =>
        let m2 := hInsert m1 newAddr ⟨data, none, hn.tail, (hn.size + 1) % W⟩
        let m3 := hInsert m2 p ⟨hn.data, hn.next, none, 0⟩
        let m4 := hInsert m3 newAddr ⟨data, some p, hn.tail, (hn.size + 1) % W⟩
        some (⟨m4, h.nextAddr + 1⟩, some (some newAddr), true)
    else some (h, some (some p), false)

/-- Removing a present key strictly shrinks the heap (used for
termination of the free loops). -/
theorem hRemove_length_lt {V : Type} (m : List (Addr × Node V)) (a : Addr)
    (n : Node V) (hl : hLookup m a = some n) : (hRemove m a).length < m.length := by
  induction m with
  | nil => simp [hLookup] at hl
  | cons e m ih =>
    by_cases hea : a = e.1
    · subst hea
      simp only [hRemove, List.filter]
      have : (e.1 != e.1) = false := by simp
      rw [this]
      calc (List.filter (fun x => x.1 != e.1) m).length ≤ m.length :=
            List.length_filter_le _ _
        _ < (e :: m).length := by simp
    · simp only [hLookup] at hl
      rw [if_neg hea] at hl
      simp only [hRemove, List.filter]
      have : (e.1 != a) = true := by simp [Ne.symm hea]
      rw [this]
      have := ih hl
      simpa [hRemove] using Nat.succ_lt_succ this

/--
Model of `linked_queue_free` (`src/library.h` lines 315-338): walk the chain from
`head`, freeing each node.  Each loop iteration reads `current->next` and
then frees `current`; reading or freeing an unallocated address is undefined
behaviour (`none`).  Termination holds in the model because each successful
iteration removes one allocation.
-/
def linked_queue_free {V : Type} (m : List (Addr × Node V)) (head : Option Addr) :
    Option (List (Addr × Node V)) :=
  match head with
  | none => some m
  | some p =>
    match hfind : hLookup m p with
    | none => none
    | some n => linked_queue_free (hRemove m p) n.next
termination_by m.length
decreasing_by exact hRemove_length_lt m p n hfind

/--
The loop of the macro-generated `linked_queue_generic_free`
(`src/linked_queue.h` lines 165-171): `while (current) { next_node =
current->next; free(current); }`.  The loop body computes `next_node` but
never assigns it to `current`, so the same pointer is freed on every
iteration; the second iteration frees an already-freed pointer (undefined
behaviour, `none`).
-/
def genericFreeLoop {V : Type} (m : List (Addr × Node V)) (current : Option Addr) :
    Option (List (Addr × Node V)) :=
  match current with
  | none => some m
  | some p =>
    match hfind : hLookup m p with
    | none => none
    | some _ => genericFreeLoop (hRemove m p) (some p)
termination_by m.length
decreasing_by exact hRemove_length_lt m p _ hfind

/--
Model of `linked_queue_generic_free` (`src/linked_queue.h` lines 152-172, the
`DEFINE_LINKED_QUEUE` expansion at `V = void*`): after the null guard the
body mallocs one extra node that is never initialized, linked or freed, and
then runs the non-advancing loop `genericFreeLoop`.
-/
def linked_queue_generic_free {V : Type} (z : V) (h : Heap V) (head : Option Addr)
    (allocOk : Bool) : Option (Heap V) :=
  match head with
  | none => some h
  | some p =>
    if allocOk then
      let m1 := hInsert h.mem h.nextAddr ⟨z, none, none, 0⟩
      (genericFreeLoop m1 (some p)).map (fun m2 => ⟨m2, h.nextAddr + 1⟩)
    else some h

/-- Looking up in `hInsert` reads the new node at `a`, and is unchanged
elsewhere. -/
theorem hLookup_hInsert {V : Type} (m : List (Addr × Node V)) (a b : Addr) (n : Node V) :
    hLookup (hInsert m a n) b = if b = a then some n else hLookup m b := by
  by_cases hba : b = a
  · simp [hInsert, hLookup, hba]
  · simp only [hInsert, hLookup, if_neg hba, hRemove]
    induction m with
    | nil => simp [hLookup]
    | cons e m ih =>
      by_cases hbe : b = e.1
      · subst hbe
        have : (e.1 != a) = true := by simp [hba]
        simp [List.filter, this, hLookup]
      · by_cases hea : e.1 = a
        · have : (e.1 != a) = false := by simp [hea]
          simp only [List.filter, this]
          rw [ih]
          simp [hLookup, hbe]
        · have : (e.1 != a) = true := by simp [hea]
          simp only [List.filter, this]
          simp only [hLookup, if_neg hbe]
          exact ih

/-- Looking up after `hRemove` fails at the removed address and is
unchanged elsewhere. -/
theorem hLookup_hRemove {V : Type} (m : List (Addr × Node V)) (a b : Addr) :
    hLookup (hRemove m a) b = if b = a then none else hLookup m b := by
  induction m with
  | nil => simp [hRemove, hLookup]
  | cons e m ih =>
    by_cases hea : e.1 = a
    · have hfe : (e.1 != a) = false := by simp [hea]
      simp only [hRemove, List.filter, hfe]
      rw [show m.filter (fun e => e.1 != a) = hRemove m a from rfl, ih]
      by_cases hba : b = a
      · simp [hba]
      · have hbe : ¬ b = e.1 := fun hc => hba (hc.trans hea)
        simp [hLookup, hba, hbe]
    · have hte : (e.1 != a) = true := by simp [hea]
      simp only [hRemove, List.filter, hte]
      simp only [hLookup]
      by_cases hbe : b = e.1
      · have hba : ¬ b = a := fun hc => hea (hbe.symm.trans hc)
        simp [hbe, hba, hea]
      · rw [if_neg hbe, if_neg hbe]
        rw [show m.filter (fun e => e.1 != a) = hRemove m a from rfl, ih]

/-- The value at the queue's head, i.e. what `head->data` reads. -/
def headData {V : Type} (m : List (Addr × Node V)) (p : Option Addr) : Option V :=
  match p with
  | none => none
  | some a => (hLookup m a).map Node.data

/-- Walk the chain from `p` collecting the `data` fields, with explicit
fuel; `none` when the fuel runs out or the walk dereferences an unallocated
address. -/
def walkData {V : Type} (m : List (Addr × Node V)) : Nat → Option Addr → Option (List V)
  | _, none => some []
  | 0, some _ => none
  | fuel + 1, some a =>
    match hLookup m a with
    | none => none
    | some n => (walkData m fuel n.next).map (fun l => n.data :: l)

/-- The chain walked from pointer `p`: `isChainB m p l` holds when following
`next` from `p` visits exactly the addresses in `l` and ends at a null
`next`.  Since `next` is a function of the node, the walk is deterministic,
so `l` is unique for a given `p` (see `isChain_unique`). -/
def isChainB {V : Type} (m : List (Addr × Node V)) : Option Addr → List Addr → Bool
  | none, [] => true
  | none, _ :: _ => false
  | some _, [] => false
  | some a, b :: l =>
    a == b &&
      match hLookup m a with
      | none => false
      | some n => isChainB m n.next l

/-- The head-metadata invariant exactly as the spec states it: the head's
`size` equals the number of reachable nodes (inclusive), and the head's
`tail`, *when set*, points to the last node of the chain (the node with
null `next`).  `l` is the explicit chain witness. -/
def headInv {V : Type} (m : List (Addr × Node V)) (p : Addr) (l : List Addr) : Bool :=
  isChainB m (some p) l &&
    match hLookup m p with
    | none => false
    | some hn =>
      hn.size == l.length &&
        match hn.tail with
        | none => true
        | some t => l.getLast? == some t && nextOf m t == some none

/-- The amended head-metadata invariant: as `headInv`, but the head's
`tail` is required to be set (and to point to the last node of the
chain). -/
def headInvStrong {V : Type} (m : List (Addr × Node V)) (p : Addr) (l : List Addr) : Bool :=
  isChainB m (some p) l &&
    match hLookup m p with
    | none => false
    | some hn =>
      hn.size == l.length &&
        match hn.tail with
        | none => false
        | some t => l.getLast? == some t && nextOf m t == some none

/-- Unfolding a chain step at a non-null pointer. -/
theorem isChainB_cons_iff {V : Type} {m : List (Addr × Node V)} {p b : Addr}
    {l : List Addr} :
    isChainB m (some p) (b :: l) = true ↔
      p = b ∧ ∃ n, hLookup m p = some n ∧ isChainB m n.next l = true := by
  simp only [isChainB, Bool.and_eq_true, beq_iff_eq]
  constructor
  · rintro ⟨hpb, h2⟩
    refine ⟨hpb, ?_⟩
    match hm : hLookup m p with
    | none => rw [hm] at h2; simp at h2
    | some n => rw [hm] at h2; exact ⟨n, rfl, h2⟩
  · rintro ⟨hpb, n, hm, h2⟩
    exact ⟨hpb, by rw [hm]; exact h2⟩

/-- A chain from a non-null pointer is nonempty and starts at that
address. -/
theorem isChain_cons {V : Type} {m : List (Addr × Node V)} {p : Addr} {l : List Addr}
    (h : isChainB m (some p) l = true) :
    ∃ n l', l = p :: l' ∧ hLookup m p = some n ∧ isChainB m n.next l' = true := by
  match l with
  | [] => simp [isChainB] at h
  | b :: l' =>
    obtain ⟨hpb, n, hm, h2⟩ := isChainB_cons_iff.mp h
    subst hpb
    exact ⟨n, l', rfl, hm, h2⟩

/-- Every address on a chain is allocated. -/
theorem isChain_lookup_isSome {V : Type} {m : List (Addr × Node V)} :
    ∀ {l : List Addr} {op : Option Addr}, isChainB m op l = true →
      ∀ a ∈ l, (hLookup m a).isSome = true := by
  intro l
  induction l with
  | nil => intro op _ a ha; simp at ha
  | cons b l' ih =>
    intro op h a ha
    match op with
    | none => simp [isChainB] at h
    | some p =>
      obtain ⟨hpb, n, hm, h2⟩ := isChainB_cons_iff.mp h
      subst hpb
      rcases List.mem_cons.mp ha with hab | hal
      · subst hab; simp [hm]
      · exact ih h2 a hal

/-- Determinism of the walk: the chain from a pointer is unique. -/
theorem isChain_unique {V : Type} {m : List (Addr × Node V)} :
    ∀ {l₁ l₂ : List Addr} {op : Option Addr},
      isChainB m op l₁ = true → isChainB m op l₂ = true → l₁ = l₂ := by
  intro l₁
  induction l₁ with
  | nil =>
    intro l₂ op h1 h2
    match op with
    | none =>
      match l₂ with
      | [] => rfl
      | _ :: _ => simp [isChainB] at h2
    | some p => simp [isChainB] at h1
  | cons b l₁' ih =>
    intro l₂ op h1 h2
    match op with
    | none => simp [isChainB] at h1
    | some p =>
      obtain ⟨hpb, n, hm, hr1⟩ := isChainB_cons_iff.mp h1
      subst hpb
      match l₂ with
      | [] => simp [isChainB] at h2
      | c :: l₂' =>
        obtain ⟨hpc, n₂, hm₂, hr2⟩ := isChainB_cons_iff.mp h2
        rw [hm] at hm₂
        cases hm₂
        rw [← hpc, ih hr1 hr2]

/-- Any member of a chain starts a chain of its own, no longer than the
original. -/
theorem isChain_mem_chain {V : Type} {m : List (Addr × Node V)} :
    ∀ {l : List Addr} {op : Option Addr}, isChainB m op l = true →
      ∀ a ∈ l, ∃ s, isChainB m (some a) s = true ∧ s.length ≤ l.length := by
  intro l
  induction l with
  | nil => intro op _ a ha; simp at ha
  | cons b l' ih =>
    intro op h a ha
    match op with
    | none => simp [isChainB] at h
    | some p =>
      have hpb : p = b := (isChainB_cons_iff.mp h).1
      subst hpb
      rcases List.mem_cons.mp ha with hab | hal
      · subst hab
        exact ⟨_, h, le_refl _⟩
      · obtain ⟨_, n, hm, h2⟩ := isChainB_cons_iff.mp h
        obtain ⟨s, hs, hlen⟩ := ih h2 a hal
        exact ⟨s, hs, Nat.le_succ_of_le hlen⟩

/-- A chain never revisits an address. -/
theorem isChain_nodup {V : Type} {m : List (Addr × Node V)} :
    ∀ {l : List Addr} {op : Option Addr}, isChainB m op l = true → l.Nodup := by
  intro l
  induction l with
  | nil => intro op _; exact List.nodup_nil
  | cons b l' ih =>
    intro op h
    match op with
    | none => simp [isChainB] at h
    | some p =>
      obtain ⟨hpb, n, hm, h2⟩ := isChainB_cons_iff.mp h
      subst hpb
      refine List.nodup_cons.mpr ⟨?_, ih h2⟩
      intro hmem
      obtain ⟨s, hs, hlen⟩ := isChain_mem_chain h2 p hmem
      have huniq := isChain_unique h hs
      rw [← huniq] at hlen
      simp at hlen

/-- An element of `getLast?` is a member of the list. -/
theorem getLast?_mem_list {α : Type} {l : List α} {a : α} (h : l.getLast? = some a) :
    a ∈ l := by
  have hx : a ∈ l.getLast? := by rw [h]; rfl
  obtain ⟨hne, heq⟩ := List.mem_getLast?_eq_getLast hx
  subst heq
  exact List.getLast_mem hne

/-- The last node of a chain has a null `next`. -/
theorem isChain_getLast_next {V : Type} {m : List (Addr × Node V)} :
    ∀ {l : List Addr} {op : Option Addr} {t : Addr}, isChainB m op l = true →
      l.getLast? = some t → nextOf m t = some none := by
  intro l
  induction l with
  | nil => intro op t _ hl; simp at hl
  | cons b l' ih =>
    intro op t h hl
    match op with
    | none => simp [isChainB] at h
    | some p =>
      obtain ⟨hpb, n, hm, h2⟩ := isChainB_cons_iff.mp h
      subst hpb
      match hl' : l' with
      | [] =>
        have ht : t = p := by simpa [List.getLast?] using hl.symm
        subst ht
        have hnone : n.next = none := by
          match hnn : n.next with
          | none => rfl
          | some q => rw [hnn] at h2; simp [isChainB] at h2
        simp [nextOf, hm, hnone]
      | c :: l'' =>
        refine ih h2 ?_
        simpa [List.getLast?_cons_cons] using hl

/-- Walk stability: a chain is unaffected by heap changes that preserve the
`next` field of every address on it. -/
theorem isChain_stable {V : Type} {m m' : List (Addr × Node V)} :
    ∀ {l : List Addr} {op : Option Addr},
      (∀ a ∈ l, nextOf m' a = nextOf m a) → isChainB m op l = true →
      isChainB m' op l = true := by
  intro l
  induction l with
  | nil =>
    intro op _ h
    match op with
    | none => exact h
    | some p => simp [isChainB] at h
  | cons b l' ih =>
    intro op hstab h
    match op with
    | none => simp [isChainB] at h
    | some p =>
      obtain ⟨hpb, n, hm, h2⟩ := isChainB_cons_iff.mp h
      subst hpb
      have hnx : nextOf m' p = some n.next := by
        rw [hstab p (List.mem_cons_self _ _)]
        simp [nextOf, hm]
      obtain ⟨n', hn', hid⟩ : ∃ n', hLookup m' p = some n' ∧ n'.next = n.next := by
        match hm' : hLookup m' p with
        | none => rw [nextOf, hm'] at hnx; simp at hnx
        | some n' =>
          rw [nextOf, hm'] at hnx
          simp at hnx
          exact ⟨n', rfl, hnx⟩
      refine isChainB_cons_iff.mpr ⟨rfl, n', hn', ?_⟩
      rw [hid]
      exact ih (fun a ha => hstab a (List.mem_cons_of_mem _ ha)) h2

/-- Chain extension: redirecting the last node's `next` to a node `f` whose
`next` is null, while preserving `next` everywhere else on the chain,
extends the chain by `f`. -/
theorem isChain_snoc {V : Type} {m m' : List (Addr × Node V)} :
    ∀ {l : List Addr} {op : Option Addr} {t f : Addr},
      l.Nodup → isChainB m op l = true →
      (∀ a ∈ l, a ≠ t → nextOf m' a = nextOf m a) →
      l.getLast? = some t →
      nextOf m' t = some (some f) →
      nextOf m' f = some none →
      isChainB m' op (l ++ [f]) = true := by
  intro l
  induction l with
  | nil => intro op t f _ _ _ hl _ _; simp at hl
  | cons b l' ih =>
    intro op t f hnd h hstab hl htn hfn
    match op with
    | none => simp [isChainB] at h
    | some p =>
      obtain ⟨hpb, n, hm, h2⟩ := isChainB_cons_iff.mp h
      subst hpb
      obtain ⟨nf, hnf, hnfx⟩ : ∃ nf, hLookup m' f = some nf ∧ nf.next = none := by
        match hmf : hLookup m' f with
        | none => rw [nextOf, hmf] at hfn; simp at hfn
        | some nf =>
          rw [nextOf, hmf] at hfn
          simp at hfn
          exact ⟨nf, rfl, hfn⟩
      match hl' : l' with
      | [] =>
        have ht : t = p := by simpa [List.getLast?] using hl.symm
        subst ht
        obtain ⟨n', hn', hnx⟩ : ∃ n', hLookup m' t = some n' ∧ n'.next = some f := by
          match hm' : hLookup m' t with
          | none => rw [nextOf, hm'] at htn; simp at htn
          | some n' =>
            rw [nextOf, hm'] at htn
            simp at htn
            exact ⟨n', rfl, htn⟩
        simp [isChainB, hn', hnx, hnf, hnfx]
      | c :: l'' =>
        have hlcc : (c :: l'').getLast? = some t := by
          simpa [List.getLast?_cons_cons] using hl
        have htmem : t ∈ c :: l'' := getLast?_mem_list hlcc
        have hpt : p ≠ t := by
          intro hc
          subst hc
          exact (List.nodup_cons.mp hnd).1 htmem
        obtain ⟨n', hn', hnx⟩ : ∃ n', hLookup m' p = some n' ∧ n'.next = n.next := by
          have hstp := hstab p (List.mem_cons_self _ _) hpt
          simp only [nextOf, hm] at hstp
          match hm' : hLookup m' p with
          | none => rw [hm'] at hstp; simp at hstp
          | some n' =>
            rw [hm'] at hstp
            simp at hstp
            exact ⟨n', rfl, hstp⟩
        rw [List.cons_append]
        refine isChainB_cons_iff.mpr ⟨rfl, n', hn', ?_⟩
        rw [hnx]
        exact ih (List.nodup_cons.mp hnd).2 h2
          (fun a ha hat => hstab a (List.mem_cons_of_mem _ ha) hat) hlcc htn hfn

/-- Characterization of a successful `linked_queue_append` when the head
has no cached tail (`head->tail == NULL`): the C body sets `head->tail =
head`, so the new node is linked directly after the head — clobbering
`head->next` if the head was not actually the last node. -/
theorem append_spec_no_tail {V : Type} (h : Heap V) (p : Addr) (hn : Node V) (v : V)
    (hp : hLookup h.mem p = some hn) (htail : hn.tail = none)
    (hpN : p ≠ h.nextAddr) :
    ∃ m', linked_queue_append h (some p) v true = some (⟨m', h.nextAddr + 1⟩, true) ∧
      hLookup m' p =
        some ⟨hn.data, some h.nextAddr, some h.nextAddr, (hn.size + 1) % W⟩ ∧
      hLookup m' h.nextAddr = some ⟨v, none, none, 0⟩ ∧
      ∀ a, a ≠ p → a ≠ h.nextAddr → hLookup m' a = hLookup h.mem a := by
  refine ⟨hInsert (hInsert (hInsert (hInsert (hInsert h.mem h.nextAddr ⟨v, none, none, 0⟩)
      p ⟨hn.data, hn.next, some p, hn.size⟩)
      p ⟨hn.data, some h.nextAddr, some p, hn.size⟩)
      p ⟨hn.data, some h.nextAddr, some h.nextAddr, hn.size⟩)
      p ⟨hn.data, some h.nextAddr, some h.nextAddr, (hn.size + 1) % W⟩, ?_, ?_, ?_, ?_⟩
  · simp [linked_queue_append, hLookup_hInsert, hp, htail, hpN]
  · simp [hLookup_hInsert]
  · simp [hLookup_hInsert, Ne.symm hpN]
  · intro a hap haN
    simp [hLookup_hInsert, hap, haN]

/-- Characterization of a successful `linked_queue_append` when the head's
cached tail points to a node other than the head itself. -/
theorem append_spec_tail_ne {V : Type} (h : Heap V) (p t : Addr) (hn tn : Node V) (v : V)
    (hp : hLookup h.mem p = some hn) (htail : hn.tail = some t)
    (htn : hLookup h.mem t = some tn) (hpt : p ≠ t)
    (hpN : p ≠ h.nextAddr) (htN : t ≠ h.nextAddr) :
    ∃ m', linked_queue_append h (some p) v true = some (⟨m', h.nextAddr + 1⟩, true) ∧
      hLookup m' p = some ⟨hn.data, hn.next, some h.nextAddr, (hn.size + 1) % W⟩ ∧
      hLookup m' t = some ⟨tn.data, some h.nextAddr, tn.tail, tn.size⟩ ∧
      hLookup m' h.nextAddr = some ⟨v, none, none, 0⟩ ∧
      ∀ a, a ≠ p → a ≠ t → a ≠ h.nextAddr → hLookup m' a = hLookup h.mem a := by
  refine ⟨hInsert (hInsert (hInsert (hInsert h.mem h.nextAddr ⟨v, none, none, 0⟩)
      t ⟨tn.data, some h.nextAddr, tn.tail, tn.size⟩)
      p ⟨hn.data, hn.next, some h.nextAddr, hn.size⟩)
      p ⟨hn.data, hn.next, some h.nextAddr, (hn.size + 1) % W⟩, ?_, ?_, ?_, ?_, ?_⟩
  · simp [linked_queue_append, hLookup_hInsert, hp, htail, htn, hpt, hpN, htN]
  · simp [hLookup_hInsert]
  · simp [hLookup_hInsert, Ne.symm hpt, htN]
  · simp [hLookup_hInsert, Ne.symm hpN, Ne.symm htN]
  · intro a hap hat haN
    simp [hLookup_hInsert, hap, hat, haN]

/-- Characterization of a successful `linked_queue_append` when the head's
cached tail points to the head itself (a one-node chain). -/
theorem append_spec_tail_self {V : Type} (h : Heap V) (p : Addr) (hn : Node V) (v : V)
    (hp : hLookup h.mem p = some hn) (htail : hn.tail = some p)
    (hpN : p ≠ h.nextAddr) :
    ∃ m', linked_queue_append h (some p) v true = some (⟨m', h.nextAddr + 1⟩, true) ∧
      hLookup m' p =
        some ⟨hn.data, some h.nextAddr, some h.nextAddr, (hn.size + 1) % W⟩ ∧
      hLookup m' h.nextAddr = some ⟨v, none, none, 0⟩ ∧
      ∀ a, a ≠ p → a ≠ h.nextAddr → hLookup m' a = hLookup h.mem a := by
  refine ⟨hInsert (hInsert (hInsert (hInsert h.mem h.nextAddr ⟨v, none, none, 0⟩)
      p ⟨hn.data, some h.nextAddr, hn.tail, hn.size⟩)
      p ⟨hn.data, some h.nextAddr, some h.nextAddr, hn.size⟩)
      p ⟨hn.data, some h.nextAddr, some h.nextAddr, (hn.size + 1) % W⟩, ?_, ?_, ?_, ?_⟩
  · simp [linked_queue_append, hLookup_hInsert, hp, htail, hpN]
  · simp [hLookup_hInsert]
  · simp [hLookup_hInsert, Ne.symm hpN]
  · intro a hap haN
    simp [hLookup_hInsert, hap, haN]

/-- Characterization of a successful `linked_queue_prepend` on a non-null
head: the new node takes over the old head's `tail` and `size + 1`, the old
head's metadata is zeroed, and the head cell is redirected. -/
theorem prepend_spec {V : Type} (h : Heap V) (p : Addr) (hn : Node V) (v : V)
    (hp : hLookup h.mem p = some hn) (hpN : p ≠ h.nextAddr) :
    ∃ m', linked_queue_prepend h (some (some p)) v true =
        some (⟨m', h.nextAddr + 1⟩, some (some h.nextAddr), true) ∧
      hLookup m' h.nextAddr = some ⟨v, some p, hn.tail, (hn.size + 1) % W⟩ ∧
      hLookup m' p = some ⟨hn.data, hn.next, none, 0⟩ ∧
      ∀ a, a ≠ p → a ≠ h.nextAddr → hLookup m' a = hLookup h.mem a := by
  refine ⟨hInsert (hInsert (hInsert (hInsert h.mem h.nextAddr ⟨v, none, none, 0⟩)
      h.nextAddr ⟨v, none, hn.tail, (hn.size + 1) % W⟩)
      p ⟨hn.data, hn.next, none, 0⟩)
      h.nextAddr ⟨v, some p, hn.tail, (hn.size + 1) % W⟩, ?_, ?_, ?_, ?_⟩
  · simp [linked_queue_prepend, hLookup_hInsert, hp, hpN]
  · simp [hLookup_hInsert]
  · simp [hLookup_hInsert, hpN]
  · intro a hap haN
    simp [hLookup_hInsert, hap, haN]

/-- Characterization of `linked_queue_next` on a head whose `next` is
non-null: the successor inherits the head's `tail` and `size - 1` (in
`size_t` arithmetic), the head node is freed, and the head cell moves to
the successor. -/
theorem next_spec {V : Type} (h : Heap V) (p q : Addr) (hn qn : Node V)
    (hp : hLookup h.mem p = some hn) (hnx : hn.next = some q)
    (hq : hLookup h.mem q = some qn) (hqp : q ≠ p) :
    ∃ m', linked_queue_next h (some (some p)) = some (⟨m', h.nextAddr⟩, some (some q)) ∧
      hLookup m' p = none ∧
      hLookup m' q = some ⟨qn.data, qn.next, hn.tail, (hn.size + (W - 1)) % W⟩ ∧
      ∀ a, a ≠ p → a ≠ q → hLookup m' a = hLookup h.mem a := by
  refine ⟨hRemove (hInsert (hInsert h.mem
      q ⟨qn.data, qn.next, qn.tail, (hn.size + (W - 1)) % W⟩)
      q ⟨qn.data, qn.next, hn.tail, (hn.size + (W - 1)) % W⟩) p, ?_, ?_, ?_, ?_⟩
  · simp [linked_queue_next, hLookup_hInsert, hp, hnx, hq, hqp, Ne.symm hqp]
  · simp [hLookup_hRemove]
  · simp [hLookup_hRemove, hLookup_hInsert, hqp]
  · intro a hap haq
    simp [hLookup_hRemove, hLookup_hInsert, hap, haq]

/-- A successful lookup exhibits a heap entry. -/
theorem hLookup_mem {V : Type} {m : List (Addr × Node V)} {a : Addr} {n : Node V}
    (hl : hLookup m a = some n) : (a, n) ∈ m := by
  induction m with
  | nil => simp [hLookup] at hl
  | cons e m ih =>
    simp only [hLookup] at hl
    by_cases hae : a = e.1
    · rw [if_pos hae] at hl
      cases hl
      subst hae
      exact List.mem_cons_self _ _
    · rw [if_neg hae] at hl
      exact List.mem_cons_of_mem _ (ih hl)

/-- In a well-formed heap every allocated address is below the allocator
counter. -/
theorem hWF_lookup_lt {V : Type} {h : Heap V} {a : Addr} {n : Node V}
    (hwf : hWF h = true) (hl : hLookup h.mem a = some n) : a < h.nextAddr := by
  have := List.all_eq_true.mp hwf (a, n) (hLookup_mem hl)
  exact of_decide_eq_true this

/-- A nonempty chain starts at the address its pointer holds. -/
theorem isChain_head {V : Type} {m : List (Addr × Node V)} {op : Option Addr}
    {b : Addr} {l : List Addr} (h : isChainB m op (b :: l) = true) : op = some b := by
  match op with
  | none => simp [isChainB] at h
  | some a => rw [(isChainB_cons_iff.mp h).1]

/-- Unfolding of the strong head-metadata invariant. -/
theorem headInvStrong_iff {V : Type} {m : List (Addr × Node V)} {p : Addr}
    {l : List Addr} :
    headInvStrong m p l = true ↔
      isChainB m (some p) l = true ∧
      ∃ hn t, hLookup m p = some hn ∧ hn.size = l.length ∧ hn.tail = some t ∧
        l.getLast? = some t ∧ nextOf m t = some none := by
  constructor
  · intro h
    unfold headInvStrong at h
    rw [Bool.and_eq_true] at h
    obtain ⟨hch, h2⟩ := h
    refine ⟨hch, ?_⟩
    match hm : hLookup m p with
    | none => rw [hm] at h2; simp at h2
    | some hn =>
      rw [hm] at h2
      rw [Bool.and_eq_true] at h2
      obtain ⟨hsz, h3⟩ := h2
      match htl : hn.tail with
      | none => rw [htl] at h3; simp at h3
      | some t =>
        rw [htl] at h3
        rw [Bool.and_eq_true, beq_iff_eq, beq_iff_eq] at h3
        exact ⟨hn, t, rfl, beq_iff_eq.mp hsz, htl, h3.1, h3.2⟩
  · rintro ⟨hch, hn, t, hm, hsz, htl, hlast, hnext⟩
    unfold headInvStrong
    rw [hm]
    simp only [Bool.and_eq_true, beq_iff_eq]
    rw [htl]
    simp only [Bool.and_eq_true, beq_iff_eq]
    exact ⟨hch, hsz, hlast, hnext⟩

/-- Unfolding of the head-metadata invariant as the spec states it
(`tail` only constrained when set). -/
theorem headInv_iff {V : Type} {m : List (Addr × Node V)} {p : Addr}
    {l : List Addr} :
    headInv m p l = true ↔
      isChainB m (some p) l = true ∧
      ∃ hn, hLookup m p = some hn ∧ hn.size = l.length ∧
        (∀ t, hn.tail = some t → l.getLast? = some t ∧ nextOf m t = some none) := by
  constructor
  · intro h
    unfold headInv at h
    rw [Bool.and_eq_true] at h
    obtain ⟨hch, h2⟩ := h
    refine ⟨hch, ?_⟩
    match hm : hLookup m p with
    | none => rw [hm] at h2; simp at h2
    | some hn =>
      rw [hm] at h2
      rw [Bool.and_eq_true] at h2
      obtain ⟨hsz, h3⟩ := h2
      refine ⟨hn, rfl, beq_iff_eq.mp hsz, ?_⟩
      intro t ht
      rw [ht] at h3
      rw [Bool.and_eq_true, beq_iff_eq, beq_iff_eq] at h3
      exact h3
  · rintro ⟨hch, hn, hm, hsz, hta⟩
    unfold headInv
    rw [Bool.and_eq_true, hm]
    refine ⟨hch, ?_⟩
    rw [Bool.and_eq_true, beq_iff_eq]
    refine ⟨hsz, ?_⟩
    match htl : hn.tail with
    | none => rfl
    | some t =>
      obtain ⟨hlast, hnext⟩ := hta t htl
      rw [Bool.and_eq_true, beq_iff_eq, beq_iff_eq]
      exact ⟨hlast, hnext⟩

/-- The `size_t` decrement of a positive value below the modulus. -/
theorem size_sub_one_mod (x : Nat) (h1 : 1 ≤ x) (h2 : x < W) :
    (x + (W - 1)) % W = x - 1 := by
  have hW : 0 < W := by unfold W; positivity
  have heq : x + (W - 1) = (x - 1) + W := by omega
  rw [heq, Nat.add_mod_right]
  exact Nat.mod_eq_of_lt (by omega)

/-- Obtaining the allocated node behind a `nextOf` fact. -/
theorem nextOf_inv {V : Type} {m : List (Addr × Node V)} {a : Addr} {o : Option Addr}
    (h : nextOf m a = some o) : ∃ n, hLookup m a = some n ∧ n.next = o := by
  match hm : hLookup m a with
  | none => rw [nextOf, hm] at h; simp at h
  | some n =>
    rw [nextOf, hm] at h
    simp at h
    exact ⟨n, rfl, h⟩

/--
Claim C9 (amended): preservation of the strengthened head-metadata
invariant — the head's count equals the number of reachable nodes and the
head's `tail_ref` is set and points to the unique node with null `next` —
by the three mutating operations of `src/library.h`: starting from any well-formed heap
whose head `p` carries the invariant over chain `l` (with the head's
cached `tail` set), a successful `linked_queue_append` re-establishes the
invariant over `l ++ [newAddr]`, a successful `linked_queue_prepend`
re-establishes it over `newAddr :: l` at the new head, and a successful
`linked_queue_next` (possible exactly when the chain has at least two
nodes) re-establishes it over the chain's tail at the new head.
-/
theorem headInvStrong_preserved {V : Type} (h : Heap V) (p : Addr) (l : List Addr) (v : V)
    (hwf : hWF h = true) (hinv : headInvStrong h.mem p l = true)
    (hlen : l.length + 1 < W) :
    (∃ m', linked_queue_append h (some p) v true = some (⟨m', h.nextAddr + 1⟩, true) ∧
        headInvStrong m' p (l ++ [h.nextAddr]) = true) ∧
    (∃ m', linked_queue_prepend h (some (some p)) v true =
        some (⟨m', h.nextAddr + 1⟩, some (some h.nextAddr), true) ∧
        headInvStrong m' h.nextAddr (h.nextAddr :: l) = true) ∧
    (∀ q l'', l = p :: q :: l'' →
        ∃ m', linked_queue_next h (some (some p)) = some (⟨m', h.nextAddr⟩, some (some q)) ∧
          headInvStrong m' q (q :: l'') = true) := by
  obtain ⟨hch, hn, t, hp, hsz, htl, hlast, htnext⟩ := headInvStrong_iff.mp hinv
  obtain ⟨n0, ltl, hleq, hp0, hchtl⟩ := isChain_cons hch
  rw [hp] at hp0
  cases hp0
  have hnd : l.Nodup := isChain_nodup hch
  have hfresh : ∀ a ∈ l, a ≠ h.nextAddr := by
    intro a ha
    have hs := isChain_lookup_isSome hch a ha
    obtain ⟨n', hn'⟩ := Option.isSome_iff_exists.mp hs
    exact Nat.ne_of_lt (hWF_lookup_lt hwf hn')
  have hpl : p ∈ l := by rw [hleq]; exact List.mem_cons_self _ _
  have hpN : p ≠ h.nextAddr := hfresh p hpl
  have htmem : t ∈ l := getLast?_mem_list hlast
  have htN : t ≠ h.nextAddr := hfresh t htmem
  obtain ⟨tn, htn, htn_next⟩ := nextOf_inv htnext
  have hszlt : (hn.size + 1) % W = l.length + 1 := by
    rw [hsz]
    exact Nat.mod_eq_of_lt hlen
  refine ⟨?_, ?_, ?_⟩
  · -- append preserves the invariant
    by_cases hpt : p = t
    · subst hpt
      obtain ⟨m', heq, hlp, hlnew, hlother⟩ :=
        append_spec_tail_self h p hn v hp (htl.trans rfl) hpN
      refine ⟨m', heq, headInvStrong_iff.mpr ⟨?_, ?_⟩⟩
      · refine isChain_snoc hnd hch ?_ hlast ?_ ?_
        · intro a ha hat
          have haN := hfresh a ha
          rw [nextOf, nextOf, hlother a hat haN]
        · simp [nextOf, hlp]
        · simp [nextOf, hlnew]
      · refine ⟨_, h.nextAddr, hlp, ?_, rfl, by simp, by simp [nextOf, hlnew]⟩
        simp [hszlt]
    · obtain ⟨m', heq, hlp, hlt, hlnew, hlother⟩ :=
        append_spec_tail_ne h p t hn tn v hp htl htn hpt hpN htN
      refine ⟨m', heq, headInvStrong_iff.mpr ⟨?_, ?_⟩⟩
      · refine isChain_snoc hnd hch ?_ hlast ?_ ?_
        · intro a ha hat
          have haN := hfresh a ha
          by_cases hap : a = p
          · subst hap
            simp [nextOf, hlp, hp]
          · rw [nextOf, nextOf, hlother a hap hat haN]
        · simp [nextOf, hlt]
        · simp [nextOf, hlnew]
      · refine ⟨_, h.nextAddr, hlp, ?_, rfl, by simp, by simp [nextOf, hlnew]⟩
        simp [hszlt]
  · -- prepend preserves the invariant
    obtain ⟨m', heq, hlnew, hlp, hlother⟩ := prepend_spec h p hn v hp hpN
    refine ⟨m', heq, headInvStrong_iff.mpr ⟨?_, ?_⟩⟩
    · refine isChainB_cons_iff.mpr ⟨rfl, _, hlnew, ?_⟩
      refine isChain_stable ?_ hch
      intro a ha
      have haN := hfresh a ha
      by_cases hap : a = p
      · subst hap
        simp [nextOf, hlp, hp]
      · rw [nextOf, nextOf, hlother a hap haN]
    · refine ⟨_, t, hlnew, ?_, by simpa using htl, ?_, ?_⟩
      · simp [hszlt]
      · rw [hleq]
        rw [List.getLast?_cons_cons]
        rw [← hleq]
        exact hlast
      · by_cases htp : t = p
        · subst htp
          have hnn : hn.next = none := by
            obtain ⟨n', hn', hnx⟩ := nextOf_inv htnext
            rw [hp] at hn'
            cases hn'
            exact hnx
          simp [nextOf, hlp, hnn]
        · have hsame : nextOf m' t = nextOf h.mem t := by
            rw [nextOf, nextOf, hlother t htp htN]
          rw [hsame]
          exact htnext
  · -- advance preserves the invariant
    intro q l'' hleq2
    subst hleq2
    obtain ⟨hn', l2, hleq3, hp2, hch2⟩ := isChain_cons hch
    rw [hp] at hp2
    cases hp2
    have hl2 : l2 = q :: l'' := by
      injection hleq3 with h1 h2
      exact h2.symm
    subst hl2
    have hnext_q : hn.next = some q := isChain_head hch2
    rw [hnext_q] at hch2
    have hqmem : q ∈ q :: l'' := List.mem_cons_self _ _
    obtain ⟨qn, hq⟩ := Option.isSome_iff_exists.mp (isChain_lookup_isSome hch2 q hqmem)
    have hpq : ¬ p ∈ q :: l'' := (List.nodup_cons.mp hnd).1
    have hqp : q ≠ p := fun hc => hpq (hc ▸ hqmem)
    obtain ⟨m', heq, hlpnone, hlq, hlother⟩ := next_spec h p q hn qn hp hnext_q hq hqp
    refine ⟨m', heq, headInvStrong_iff.mpr ⟨?_, ?_⟩⟩
    · refine isChain_stable ?_ hch2
      intro a ha
      have hap : a ≠ p := fun hc => hpq (hc ▸ ha)
      by_cases haq : a = q
      · subst haq
        simp [nextOf, hlq, hq]
      · rw [nextOf, nextOf, hlother a hap haq]
    · have hlast2 : (q :: l'').getLast? = some t := by
        rw [← List.getLast?_cons_cons (a := p)]
        exact hlast
      have htqmem : t ∈ q :: l'' := getLast?_mem_list hlast2
      have htp2 : t ≠ p := fun hc => hpq (hc ▸ htqmem)
      refine ⟨_, t, hlq, ?_, by simpa using htl, hlast2, ?_⟩
      · have hx : hn.size = l''.length + 2 := by
          rw [hsz]
          simp
        rw [hx, size_sub_one_mod (l''.length + 2) (by omega) (by simp at hlen; omega)]
        simp
      · by_cases htq : t = q
        · subst htq
          have hqn : qn.next = none := by
            obtain ⟨n', hn', hnx⟩ := nextOf_inv htnext
            rw [hq] at hn'
            cases hn'
            exact hnx
          simp [nextOf, hlq, hqn]
        · have hsame : nextOf m' t = nextOf h.mem t := by
            rw [nextOf, nextOf, hlother t htp2 htq]
          rw [hsame]
          exact htnext

/-- The source's documented starting state (`library.h` example, lines
110-111): a caller-provided head node initialized by `linked_queue_init`.
This is the closest the source comes to `create()`. -/
def hSentinel : Heap Nat := ⟨[(0, linked_queue_init 0)], 1⟩

/-- Heap after `append(hSentinel, 10)`. -/
def hA1 : Heap Nat := ⟨[(0, ⟨0, some 1, some 1, 1⟩), (1, ⟨10, none, none, 0⟩)], 2⟩

/-- Heap after advancing `hA1` once. -/
def hA2 : Heap Nat := ⟨[(1, ⟨10, none, some 1, 0⟩)], 2⟩

/-- A queue holding exactly one remaining node (data 5, null `next`,
`size` 1). -/
def hSingleNode : Heap Nat := ⟨[(0, ⟨5, none, none, 1⟩)], 1⟩

/-- Heap after `append 1; append 2; prepend 0` from `hSentinel`: the chain
from the new head 3 is 3 → 0(sentinel) → 1 → 2. -/
def hC6 : Heap Nat := ⟨[(3, ⟨0, some 0, some 2, 3⟩), (0, ⟨0, some 1, none, 0⟩),
  (1, ⟨1, some 2, none, 0⟩), (2, ⟨2, none, none, 0⟩)], 4⟩

/-- Heap after advancing `hC6` once. -/
def hC6b : Heap Nat := ⟨[(0, ⟨0, some 1, some 2, 2⟩), (1, ⟨1, some 2, none, 0⟩),
  (2, ⟨2, none, none, 0⟩)], 4⟩

/-- A two-node chain 0 → 1 whose head has the correct count 2 but no
cached tail: it satisfies the spec's head-metadata invariant as stated
(`tail_ref` only constrained "when set"). -/
def hC9pre : Heap Nat := ⟨[(0, ⟨0, some 1, none, 2⟩), (1, ⟨1, none, none, 0⟩)], 2⟩

/-- Heap after `append(hC9pre, 7)`: the `head->tail = head` branch
redirected `head->next` to the new node 2, orphaning node 1, while the
head's count became 3. -/
def hC9post : Heap Nat := ⟨[(0, ⟨0, some 2, some 2, 3⟩), (2, ⟨7, none, none, 0⟩),
  (1, ⟨1, none, none, 0⟩)], 3⟩

/-- A two-node chain 0 → 1 satisfying the strengthened head-metadata
invariant (count 2, cached tail set to node 1). -/
def hW9 : Heap Nat := ⟨[(0, ⟨5, some 1, some 1, 2⟩), (1, ⟨6, none, none, 0⟩)], 2⟩

/--
Claim C1 (code_bug): the FIFO round-trip fails on the source.  An "empty
queue" in the spec's sense (`head = none`) rejects every append, so the
source's documented usage starts from an initialized sentinel head node
instead; after `append 10` the value observed at the head is the
sentinel's zero payload, not 10, and after n = 1 advances the queue still
holds one allocated node (head is non-null), so n appends followed by n
advances neither observe the appended values in order nor empty the queue.
-/
theorem fifo_roundtrip_code_violation :
    linked_queue_append (⟨[], 0⟩ : Heap Nat) none 10 true = some (⟨[], 0⟩, false) ∧
    linked_queue_append hSentinel (some 0) 10 true = some (hA1, true) ∧
    headData hA1.mem (some 0) = some 0 ∧
    headData hA1.mem (some 0) ≠ some 10 ∧
    linked_queue_next hA1 (some (some 0)) = some (hA2, some (some 1)) ∧
    (some (some 1) : Option (Option Addr)) ≠ some none ∧
    hLookup hA2.mem 1 = some ⟨10, none, some 1, 0⟩ := by
  refine ⟨rfl, by decide, by decide, by decide, by decide, by decide, by decide⟩

/--
Claim C2 (code_bug): advancing a queue with exactly one remaining node is
undefined behaviour in the source, not a transition to the empty queue:
`linked_queue_next` reads `next_node = (*head)->next` (here `NULL`) and
unconditionally writes `next_node->size`, a null dereference.  The model
returns `none` (undefined behaviour) on this input.
-/
theorem advance_last_node_null_dereference :
    hLookup hSingleNode.mem 0 = some ⟨5, none, none, 1⟩ ∧
    linked_queue_next hSingleNode (some (some 0)) = none := by decide

/--
Claim C3 (counterexample): invoking `linked_queue_next` on an empty queue
does not fail with any error — the C function returns `void` and its null
guard makes it return silently, leaving the queue unchanged.  The model
shows a normal completion (`some`) with the empty state intact, refuting
"fails with EmptyQueueError".
-/
theorem advance_empty_no_error_signal_cex :
    linked_queue_next (⟨[], 0⟩ : Heap Nat) (some none) = some (⟨[], 0⟩, some none) := rfl

/--
Claim C3 (amended): invoking `linked_queue_next` on an empty queue is a
guarded silent no-op — the source has no `EmptyQueueError` and signals
nothing — and the queue remains empty and otherwise unchanged.
-/
theorem advance_empty_silent_noop {V : Type} (h : Heap V) :
    linked_queue_next h (some none) = some (h, some none) ∧
    linked_queue_next h none = some (h, none) :=
  ⟨rfl, rfl⟩

/--
Claim C4: a successful `linked_queue_append` leaves the head's cached
`tail` pointing at the node just appended (which holds the appended value
and a null `next`) and increments the head's count by exactly 1.
-/
theorem append_updates_tail_and_count {V : Type} (h : Heap V) (p : Addr) (hn : Node V)
    (v : V) (hwf : hWF h = true) (hp : hLookup h.mem p = some hn)
    (htv : ∀ u, hn.tail = some u → ∃ un, hLookup h.mem u = some un)
    (hsz : hn.size + 1 < W) :
    ∃ m', linked_queue_append h (some p) v true = some (⟨m', h.nextAddr + 1⟩, true) ∧
      (∃ hn', hLookup m' p = some hn' ∧ hn'.tail = some h.nextAddr ∧
        hn'.size = hn.size + 1) ∧
      (∃ nn, hLookup m' h.nextAddr = some nn ∧ nn.data = v ∧ nn.next = none) := by
  have hpN : p ≠ h.nextAddr := Nat.ne_of_lt (hWF_lookup_lt hwf hp)
  have hmod : (hn.size + 1) % W = hn.size + 1 := Nat.mod_eq_of_lt hsz
  match htl : hn.tail with
  | none =>
    obtain ⟨m', heq, hlp, hlnew, -⟩ := append_spec_no_tail h p hn v hp htl hpN
    exact ⟨m', heq, ⟨_, hlp, rfl, hmod⟩, ⟨_, hlnew, rfl, rfl⟩⟩
  | some u =>
    obtain ⟨un, hun⟩ := htv u htl
    by_cases hpu : p = u
    · subst hpu
      obtain ⟨m', heq, hlp, hlnew, -⟩ := append_spec_tail_self h p hn v hp htl hpN
      exact ⟨m', heq, ⟨_, hlp, rfl, hmod⟩, ⟨_, hlnew, rfl, rfl⟩⟩
    · have huN : u ≠ h.nextAddr := Nat.ne_of_lt (hWF_lookup_lt hwf hun)
      obtain ⟨m', heq, hlp, hlt, hlnew, -⟩ :=
        append_spec_tail_ne h p u hn un v hp htl hun hpu hpN huN
      exact ⟨m', heq, ⟨_, hlp, rfl, hmod⟩, ⟨_, hlnew, rfl, rfl⟩⟩

/-- Witness for claim C4 at the sentinel queue. -/
theorem append_updates_tail_and_count_witness :
    hWF hSentinel = true ∧
    (∃ m', linked_queue_append hSentinel (some 0) 42 true = some (⟨m', 2⟩, true) ∧
      (∃ hn', hLookup m' 0 = some hn' ∧ hn'.tail = some 1 ∧ hn'.size = 1) ∧
      (∃ nn, hLookup m' 1 = some nn ∧ nn.data = 42 ∧ nn.next = none)) :=
  ⟨by decide, append_updates_tail_and_count hSentinel 0 ⟨0, none, none, 0⟩ 42
    (by decide) (by decide) (fun u hu => by simp at hu) (by decide)⟩

/--
Claim C5: a successful `linked_queue_prepend` makes the new node the head,
carrying the aggregate count old + 1 and the old chain's unchanged cached
tail, with `next` pointing at the old head; the old head's `tail` and
`size` are cleared (it is no longer authoritative for count or tail), its
payload and `next` untouched.  On an empty queue (null head) no prepend
ever succeeds in the source, so the "(or itself if the queue was empty)"
case is vacuous.
-/
theorem prepend_count_tail_and_old_head {V : Type} (h : Heap V) (p : Addr) (hn : Node V)
    (v : V) (hwf : hWF h = true) (hp : hLookup h.mem p = some hn)
    (hsz : hn.size + 1 < W) :
    ∃ m', linked_queue_prepend h (some (some p)) v true =
        some (⟨m', h.nextAddr + 1⟩, some (some h.nextAddr), true) ∧
      hLookup m' h.nextAddr = some ⟨v, some p, hn.tail, hn.size + 1⟩ ∧
      hLookup m' p = some ⟨hn.data, hn.next, none, 0⟩ := by
  have hpN : p ≠ h.nextAddr := Nat.ne_of_lt (hWF_lookup_lt hwf hp)
  obtain ⟨m', heq, hlnew, hlp, -⟩ := prepend_spec h p hn v hp hpN
  rw [Nat.mod_eq_of_lt hsz] at hlnew
  exact ⟨m', heq, hlnew, hlp⟩

/-- Witness for claim C5 at the sentinel queue. -/
theorem prepend_count_tail_and_old_head_witness :
    ∃ m', linked_queue_prepend hSentinel (some (some 0)) 7 true =
        some (⟨m', 2⟩, some (some 1), true) ∧
      hLookup m' 1 = some ⟨7, some 0, none, 1⟩ ∧
      hLookup m' 0 = some ⟨0, none, none, 0⟩ :=
  prepend_count_tail_and_old_head hSentinel 0 ⟨0, none, none, 0⟩ 7
    (by decide) (by decide) (by decide)

/--
Claim C6 (code_bug): after `append 1; append 2; prepend 0` from the
source's documented starting state, walking the chain from the head yields
`[0, 0, 1, 2]` — the prepended 0, then the sentinel head's zero payload
sitting in the middle of the chain, then the appended values — not the
claimed `[0, 1, 2]`; one advance discards the prepended 0 but leaves
`[0, 1, 2]` (sentinel still included), not `[1, 2]`.
-/
theorem interleaved_chain_code_violation :
    ((linked_queue_append hSentinel (some 0) 1 true).bind fun r1 =>
      (linked_queue_append r1.1 (some 0) 2 true).bind fun r2 =>
        linked_queue_prepend r2.1 (some (some 0)) 0 true) =
      some (hC6, some (some 3), true) ∧
    walkData hC6.mem 4 (some 3) = some [0, 0, 1, 2] ∧
    (some [0, 0, 1, 2] : Option (List Nat)) ≠ some [0, 1, 2] ∧
    linked_queue_next hC6 (some (some 3)) = some (hC6b, some (some 0)) ∧
    walkData hC6b.mem 4 (some 0) = some [0, 1, 2] ∧
    (some [0, 1, 2] : Option (List Nat)) ≠ some [1, 2] := by
  refine ⟨by decide, by decide, by decide, by decide, by decide, by decide⟩

/--
Claim C7: when `malloc` fails, `linked_queue_append` and
`linked_queue_prepend` return `FALSE` and the heap — every link, tail
reference, count and payload of the existing chain — is left literally
unchanged (strong exception safety), because the allocation check precedes
every mutation in both bodies.
-/
theorem alloc_failure_strong_safety {V : Type} (h : Heap V) (p : Addr) (v : V) :
    linked_queue_append h (some p) v false = some (h, false) ∧
    linked_queue_prepend h (some (some p)) v false = some (h, some (some p), false) :=
  ⟨rfl, rfl⟩

/--
Claim C8 (code_bug): the macro-generated `linked_queue_free` of
`src/linked_queue.h` never advances `current` in its loop, so on any
non-empty queue it frees the head node and then frees the same (already
freed) pointer again — undefined behaviour (`none`), a double free — and
it additionally mallocs one extra node it never uses or releases.  The
`src/library.h` version does walk the chain once (shown on the singleton
queue), and releasing a null head is a no-op in both, but a second release
through the same non-null head pointer is itself a use-after-free.
-/
theorem generic_free_double_free_and_leak :
    linked_queue_generic_free (0 : Nat) hSingleNode (some 0) true = none ∧
    linked_queue_free hSingleNode.mem (some 0) = some [] ∧
    linked_queue_free ([] : List (Addr × Node Nat)) none = some [] ∧
    linked_queue_free ([] : List (Addr × Node Nat)) (some 0) = none := by
  refine ⟨?_, ?_, ?_, ?_⟩
  · simp [linked_queue_generic_free, genericFreeLoop, hSingleNode, hInsert, hRemove,
      hLookup, List.filter]
  · simp [linked_queue_free, hSingleNode, hRemove, hLookup, List.filter]
  · simp [linked_queue_free]
  · simp [linked_queue_free, hLookup]

/--
Claim C9 (counterexample): the head-metadata invariant exactly as stated —
count equal to the number of reachable nodes, and `tail_ref` constrained
only "when set" — is not preserved by `linked_queue_append`.  On a
two-node chain with a correct count and an unset `tail_ref` (which the
stated invariant admits), the append's `head->tail = head` branch rewires
`head->next` to the new node, orphaning the old second node: afterwards no
chain witness satisfies the invariant (the count is 3, the chain has 2
nodes).
-/
theorem headInv_append_not_preserved_cex :
    hWF hC9pre = true ∧
    headInv hC9pre.mem 0 [0, 1] = true ∧
    linked_queue_append hC9pre (some 0) 7 true = some (hC9post, true) ∧
    ∀ l', headInv hC9post.mem 0 l' = false := by
  refine ⟨by decide, by decide, by decide, ?_⟩
  intro l'
  cases hb : isChainB hC9post.mem (some 0) l' with
  | false =>
    unfold headInv
    rw [hb]
    rfl
  | true =>
    have hl : l' = [0, 2] := isChain_unique hb (by decide)
    subst hl
    decide

/-- Witness for claim C9 (amended preservation theorem) at a two-node
chain with cached tail: the append part of the conclusion. -/
theorem headInvStrong_preserved_witness :
    ∃ m', linked_queue_append hW9 (some 0) 9 true = some (⟨m', 3⟩, true) ∧
      headInvStrong m' 0 [0, 1, 2] = true :=
  (headInvStrong_preserved hW9 0 [0, 1] 9 (by decide) (by decide) (by decide)).1

/--
Claim C10: every public operation is a guarded no-op at the interface when
handed a null queue handle (or, for the by-reference operations, a null
pointer to the handle): `linked_queue_append` and `linked_queue_prepend`
return `FALSE`, `linked_queue_next` and `linked_queue_free` return without
effect; in all cases nothing is allocated and no state is mutated.
-/
theorem null_handle_guarded_noops {V : Type} (h : Heap V) (v : V) (ok : Bool) :
    linked_queue_append h none v ok = some (h, false) ∧
    linked_queue_prepend h none v ok = some (h, none, false) ∧
    linked_queue_prepend h (some none) v ok = some (h, some none, false) ∧
    linked_queue_next h none = some (h, none) ∧
    linked_queue_next h (some none) = some (h, some none) ∧
    linked_queue_free h.mem none = some h.mem := by
  refine ⟨rfl, rfl, rfl, rfl, rfl, ?_⟩
  simp [linked_queue_free]
